import Mathlib

/-!
Verification of the hunter regression-digest pipeline of `fallout-tests`
(`src/scripts/create_send_email.py` and its collaborators), shallowly
embedded in Lean.

Strings are modelled by Lean `String` (and, for the ledger logic that
works character by character, by `List Char`).  The detector's
`forward_change_percent` is a JSON scalar: the code interpolates its raw
textual form into the rendered message and compares `float(...)` of it
against the threshold; the embedding keeps both views as separate fields
(`forward_change_percent_str` for the raw text, `forward_change_percent`
for the parsed numeric value, idealised as a rational).
-/

/-- One element of a `changes` list in a hunter results document:
a metric name together with the reported forward change percentage
(raw textual form and parsed numeric value). -/
structure Change where
  metric : String
  forward_change_percent_str : String
  forward_change_percent : ℚ
deriving DecidableEq

/-- One element of the per-test list in a hunter results document:
a timestamp (`time`) and its list of significant changes. -/
structure TimeEntry where
  time : String
  changes : List Change
deriving DecidableEq

/-- A hunter results document (one JSON object per line of a results
file): a mapping from test-type keys to their time entries, modelled as
an insertion-ordered association list.  `next(iter(d))` in the code reads
the first key; `d == {}` is the empty list. -/
abbrev HunterDict := List (String × List TimeEntry)

/-- Python `str.startswith`. -/
def pyStartsWith (s pre : String) : Bool :=
  pre.data.isPrefixOf s.data

/-- The date key the code derives from a `time` value:
`time.replace("-", "_").split(' ')[0]`. -/
def dateKey (time : String) : String :=
  (((time.replace "-" "_").splitOn " ").headD "")

/-- The f-string of `get_list_of_signif_changes_w_context` rendering one
significant change with its context. -/
def renderChange (test_type time cassSha falloutSha metric pctRaw : String) : String :=
  "For the test '" ++ test_type ++ "' on date and time '" ++ time ++
    "' that ran on cassandra Git commit SHA '" ++ cassSha ++
    "' and on fallout-tests Git commit SHA '" ++ falloutSha ++
    "':\n\t The metric '" ++ metric ++ "' changed by " ++ pctRaw ++ "%.\n"

/-- The bad-change condition of the code: for metrics whose name starts
with `totalOps` or `opRate` the change is kept when it is below the
negated threshold, for every other metric name when it is above the
threshold. -/
def keepChange (threshold : ℚ) (c : Change) : Bool :=
  if pyStartsWith c.metric "totalOps" || pyStartsWith c.metric "opRate" then
    decide (c.forward_change_percent < -threshold)
  else
    decide (threshold < c.forward_change_percent)

/-- The list `list_of_all_bad_highly_signif_changes_w_context` built by
the nested loops of `get_list_of_signif_changes_w_context` for the first
test type: every change of every time entry that passes `keepChange`,
rendered with its context, in iteration order.  The git SHA lookups are
external collaborators, passed in as functions of the date key. -/
def badListOfEntries (shaC shaF : String → String) (threshold : ℚ)
    (test_type : String) (entries : List TimeEntry) : List String :=
  (entries.map (fun e =>
    (e.changes.filter (keepChange threshold)).map (fun c =>
      renderChange test_type e.time (shaC (dateKey e.time)) (shaF (dateKey e.time))
        c.metric c.forward_change_percent_str))).flatten

/-- First-occurrence list of the distinct values of a list (`seen`
accumulates the values already emitted).  `pandas.Series.value_counts`
returns the distinct values with their frequencies, most frequent first
and, among equal frequencies, in order of first appearance; the code then
walks that series in order. -/
def uniqFirst : List String → List String → List String
  | [], _ => []
  | a :: l, seen => if a ∈ seen then uniqFirst l seen else a :: uniqFirst l (a :: seen)

/-- The `value_counts`-based final pass of
`get_list_of_signif_changes_w_context`: of the distinct rendered change
texts, keep exactly those whose frequency in the batch is 1, in order of
first appearance (all frequency-1 values share the same frequency, so
their relative order in the sorted series is their first-appearance
order). -/
def uniqCount1 (l : List String) : List String :=
  (uniqFirst l []).filter (fun s => l.count s == 1)

/-- Shallow embedding of `get_list_of_signif_changes_w_context`.  The
Python loop over `hunter_results_list_of_dicts` returns at the end of its
first iteration, so only the first document is processed; an empty list
falls off the loop and returns `None`; an empty first document makes
`next(iter(hunter_dict))` raise `StopIteration`. -/
def get_list_of_signif_changes_w_context (shaC shaF : String → String)
    (batch : List HunterDict) (threshold : ℚ) :
    Except String (Option (List String)) :=
  match batch with
  | [] => .ok none
  | [] :: _ => .error "StopIteration"
  | ((test_type, entries) :: _) :: _ =>
      .ok (some (uniqCount1 (badListOfEntries shaC shaF threshold test_type entries)))

/-- The threshold constant `THRESH_PERF_REGRESS` (default threshold of
the pipeline). -/
def THRESH_PERF_REGRESS : ℚ := 11

/-- The bad-change list of a single change in a single time entry: the
rendered change when `keepChange` holds, nothing otherwise. -/
lemma badList_singleton (shaC shaF : String → String) (t : ℚ) (tt time : String)
    (c : Change) :
    badListOfEntries shaC shaF t tt [⟨time, [c]⟩] =
      if keepChange t c then
        [renderChange tt time (shaC (dateKey time)) (shaF (dateKey time))
          c.metric c.forward_change_percent_str]
      else [] := by
  simp only [badListOfEntries, List.map, List.filter, List.flatten]
  cases h : keepChange t c <;> simp [h]

lemma badList_singleton_ne (shaC shaF : String → String) (t : ℚ) (tt time : String)
    (c : Change) :
    badListOfEntries shaC shaF t tt [⟨time, [c]⟩] ≠ [] ↔ keepChange t c = true := by
  rw [badList_singleton]
  cases h : keepChange t c <;> simp [h]

/-- C1.  For a change entry processed by
`get_list_of_signif_changes_w_context` with a (nonnegative) threshold
`t`: if the metric name is a throughput metric (`totalOps`, `opRate`) the
entry enters the bad-significant list iff its forward change percent is
strictly below `-t`; for every other metric name iff it is strictly above
`t`; a percent equal to `t` or `-t` is never kept, and an improvement (a
change in the non-regression direction) is never kept regardless of
magnitude. -/
theorem claim_C1_directional_threshold (shaC shaF : String → String)
    (test_type time : String) (t : ℚ) (c : Change) (ht : 0 ≤ t) :
    (((pyStartsWith c.metric "totalOps" || pyStartsWith c.metric "opRate") = true →
        (badListOfEntries shaC shaF t test_type [⟨time, [c]⟩] ≠ [] ↔
          c.forward_change_percent < -t)) ∧
      ((pyStartsWith c.metric "totalOps" || pyStartsWith c.metric "opRate") = false →
        (badListOfEntries shaC shaF t test_type [⟨time, [c]⟩] ≠ [] ↔
          t < c.forward_change_percent)) ∧
      ((c.forward_change_percent = t ∨ c.forward_change_percent = -t) →
        badListOfEntries shaC shaF t test_type [⟨time, [c]⟩] = []) ∧
      ((if (pyStartsWith c.metric "totalOps" || pyStartsWith c.metric "opRate") = true
          then 0 < c.forward_change_percent else c.forward_change_percent < 0) →
        badListOfEntries shaC shaF t test_type [⟨time, [c]⟩] = [])) := by
  have hne := badList_singleton_ne shaC shaF t test_type time c
  have hsing := badList_singleton shaC shaF t test_type time c
  refine ⟨fun h => ?_, fun h => ?_, fun h => ?_, fun h => ?_⟩
  · rw [hne]
    simp [keepChange, h]
  · rw [hne]
    simp [keepChange, h]
  · rw [hsing, if_neg]
    simp only [keepChange]
    rcases h with h | h <;>
      cases hb : (pyStartsWith c.metric "totalOps" || pyStartsWith c.metric "opRate") <;>
        simp [hb, h] <;> linarith
  · rw [hsing, if_neg]
    simp only [keepChange]
    cases hb : (pyStartsWith c.metric "totalOps" || pyStartsWith c.metric "opRate") <;>
      simp [hb] at h ⊢ <;> linarith

/-- Witness for C1 at a concrete input: the throughput metric `opRate`
with a `-20` percent change and threshold `11`. -/
theorem claim_C1_directional_threshold_witness :
    (0:ℚ) ≤ 11 ∧
      (((pyStartsWith "opRate" "totalOps" || pyStartsWith "opRate" "opRate") = true →
          (badListOfEntries (fun _ => "") (fun _ => "") 11 "tt"
              [⟨"2022-01-01 23:00:00", [⟨"opRate", "-20", -20⟩]⟩] ≠ [] ↔
            (-20:ℚ) < -11)) ∧
        ((pyStartsWith "opRate" "totalOps" || pyStartsWith "opRate" "opRate") = false →
          (badListOfEntries (fun _ => "") (fun _ => "") 11 "tt"
              [⟨"2022-01-01 23:00:00", [⟨"opRate", "-20", -20⟩]⟩] ≠ [] ↔
            (11:ℚ) < -20)) ∧
        (((-20:ℚ) = 11 ∨ (-20:ℚ) = -11) →
          badListOfEntries (fun _ => "") (fun _ => "") 11 "tt"
            [⟨"2022-01-01 23:00:00", [⟨"opRate", "-20", -20⟩]⟩] = []) ∧
        ((if (pyStartsWith "opRate" "totalOps" || pyStartsWith "opRate" "opRate") = true
            then (0:ℚ) < -20 else (-20:ℚ) < 0) →
          badListOfEntries (fun _ => "") (fun _ => "") 11 "tt"
            [⟨"2022-01-01 23:00:00", [⟨"opRate", "-20", -20⟩]⟩] = [])) :=
  ⟨by norm_num,
    claim_C1_directional_threshold (fun _ => "") (fun _ => "") "tt"
      "2022-01-01 23:00:00" 11 ⟨"opRate", "-20", -20⟩ (by norm_num)⟩

/-- The classifier test fixture
(`test_get_list_of_signif_changes_w_context`): one test type, two
timestamps, six metric changes each. -/
def fixtureBatch : List HunterDict :=
  [[("lwt-fixed-100-partitions",
      [⟨"2022-01-01 23:00:00",
        [⟨"totalOps", "-10", -10⟩, ⟨"avgLat", "20", 20⟩, ⟨"p99", "30", 30⟩,
          ⟨"opRate", "-20", -20⟩, ⟨"p95", "-25", -25⟩, ⟨"maxLat", "50", 50⟩]⟩,
       ⟨"2022-01-02 23:00:00",
        [⟨"totalOps", "-5", -5⟩, ⟨"avgLat", "10", 10⟩, ⟨"p99", "15", 15⟩,
          ⟨"opRate", "15", 15⟩, ⟨"p95", "15", 15⟩, ⟨"maxLat", "30", 30⟩]⟩])]]

/-- What the code actually returns on the fixture with threshold 11: the
seven changes that are in the bad direction for their metric and beyond
the threshold in absolute value.  `p95 -25` (a latency drop) and
`opRate 15` (a throughput rise) are improvements and are not kept. -/
def fixtureExpectedSeven : List String :=
  [renderChange "lwt-fixed-100-partitions" "2022-01-01 23:00:00" "" "" "avgLat" "20",
   renderChange "lwt-fixed-100-partitions" "2022-01-01 23:00:00" "" "" "p99" "30",
   renderChange "lwt-fixed-100-partitions" "2022-01-01 23:00:00" "" "" "opRate" "-20",
   renderChange "lwt-fixed-100-partitions" "2022-01-01 23:00:00" "" "" "maxLat" "50",
   renderChange "lwt-fixed-100-partitions" "2022-01-02 23:00:00" "" "" "p99" "15",
   renderChange "lwt-fixed-100-partitions" "2022-01-02 23:00:00" "" "" "p95" "15",
   renderChange "lwt-fixed-100-partitions" "2022-01-02 23:00:00" "" "" "maxLat" "30"]

set_option maxRecDepth 8000 in
/-- C2 counterexample.  On the fixture batch with threshold 11 the code
returns seven changes, not nine: the directional rule drops `p95 -25` and
`opRate 15` even though their magnitude exceeds the threshold. -/
theorem claim_C2_counterexample :
    get_list_of_signif_changes_w_context (fun _ => "") (fun _ => "") fixtureBatch 11 =
      .ok (some fixtureExpectedSeven) ∧ fixtureExpectedSeven.length = 7 :=
  ⟨by rfl, by rfl⟩

set_option maxRecDepth 8000 in
/-- C2 as amended.  On the fixture batch with threshold 11,
`get_list_of_signif_changes_w_context` returns exactly the seven changes
that are regressions beyond the threshold (avgLat 20, p99 30, opRate -20,
maxLat 50 on the first timestamp; p99 15, p95 15, maxLat 30 on the
second); the improvement-direction changes `p95 -25` and `opRate 15` are
excluded along with the three below-threshold ones. -/
theorem claim_C2_amended :
    get_list_of_signif_changes_w_context (fun _ => "") (fun _ => "") fixtureBatch 11 =
      .ok (some fixtureExpectedSeven) ∧
    renderChange "lwt-fixed-100-partitions" "2022-01-01 23:00:00" "" "" "p95" "-25" ∉
      fixtureExpectedSeven ∧
    renderChange "lwt-fixed-100-partitions" "2022-01-02 23:00:00" "" "" "opRate" "15" ∉
      fixtureExpectedSeven :=
  ⟨by rfl, by decide, by decide⟩

lemma mem_uniqFirst (x : String) :
    ∀ (l seen : List String), x ∈ uniqFirst l seen ↔ x ∈ l ∧ x ∉ seen := by
  intro l
  induction l with
  | nil => intro seen; simp [uniqFirst]
  | cons a l ih =>
    intro seen
    simp only [uniqFirst]
    split
    · rename_i h
      rw [ih]
      simp only [List.mem_cons]
      constructor
      · rintro ⟨hx, hs⟩
        exact ⟨Or.inr hx, hs⟩
      · rintro ⟨rfl | hx, hs⟩
        · exact absurd h hs
        · exact ⟨hx, hs⟩
    · rename_i h
      simp only [List.mem_cons, ih, not_or]
      constructor
      · rintro (rfl | ⟨hx, hne, hs⟩)
        · exact ⟨Or.inl rfl, h⟩
        · exact ⟨Or.inr hx, hs⟩
      · rintro ⟨rfl | hx, hs⟩
        · exact Or.inl rfl
        · by_cases hxa : x = a
          · exact Or.inl hxa
          · exact Or.inr ⟨hx, hxa, hs⟩

lemma nodup_uniqFirst : ∀ (l seen : List String), (uniqFirst l seen).Nodup := by
  intro l
  induction l with
  | nil => intro seen; simp [uniqFirst]
  | cons a l ih =>
    intro seen
    simp only [uniqFirst]
    split
    · exact ih _
    · refine List.nodup_cons.mpr ⟨?_, ih _⟩
      rw [mem_uniqFirst]
      rintro ⟨-, hs⟩
      exact hs (List.mem_cons_self _ _)

lemma mem_uniqCount1 (l : List String) (x : String) :
    x ∈ uniqCount1 l ↔ l.count x = 1 := by
  simp only [uniqCount1, List.mem_filter, mem_uniqFirst, beq_iff_eq]
  constructor
  · rintro ⟨-, h⟩
    exact h
  · intro h
    refine ⟨⟨?_, by simp⟩, h⟩
    by_contra hx
    rw [List.count_eq_zero_of_not_mem hx] at h
    exact absurd h (by norm_num)

lemma nodup_uniqCount1 (l : List String) : (uniqCount1 l).Nodup :=
  (nodup_uniqFirst l []).filter _

lemma count_uniqCount1 (l : List String) (x : String) :
    (uniqCount1 l).count x = if l.count x = 1 then 1 else 0 := by
  by_cases h : l.count x = 1
  · rw [if_pos h]
    exact List.count_eq_one_of_mem (nodup_uniqCount1 l) ((mem_uniqCount1 l x).mpr h)
  · rw [if_neg h]
    exact List.count_eq_zero_of_not_mem (fun hx => h ((mem_uniqCount1 l x).mp hx))

/-- C3.  In the list returned by `get_list_of_signif_changes_w_context`,
a rendered change text occurring two or more times among the
bad-significant changes of the batch appears zero times (it is dropped,
not collapsed), while a text occurring exactly once appears exactly
once. -/
theorem claim_C3_duplicate_suppression (shaC shaF : String → String) (t : ℚ)
    (test_type : String) (entries : List TimeEntry)
    (restPairs : List (String × List TimeEntry)) (restBatch : List HunterDict)
    (x : String) :
    get_list_of_signif_changes_w_context shaC shaF
        (((test_type, entries) :: restPairs) :: restBatch) t =
      .ok (some (uniqCount1 (badListOfEntries shaC shaF t test_type entries))) ∧
    (uniqCount1 (badListOfEntries shaC shaF t test_type entries)).count x =
      (if (badListOfEntries shaC shaF t test_type entries).count x = 1 then 1 else 0) :=
  ⟨rfl, count_uniqCount1 _ x⟩

/-- Python `str.join` with separator `sep`: the pieces joined with `sep`
between consecutive pieces. -/
def joinSep (sep : List Char) : List (List Char) → List Char
  | [] => []
  | [x] => x
  | x :: xs => x ++ sep ++ joinSep sep xs

/-- Python `str.lstrip("\n")`: drop every leading newline. -/
def lstripNL : List Char → List Char
  | [] => []
  | c :: rest => if c = '\n' then lstripNL rest else c :: rest

/-- Python `str.split("\n\n")`: cut at each non-overlapping occurrence of
a blank line (two consecutive newlines), scanning left to right. -/
def splitNN : List Char → List (List Char)
  | [] => [[]]
  | '\n' :: '\n' :: rest => [] :: splitNN rest
  | c :: rest =>
    match splitNN rest with
    | [] => [[c]]
    | p :: ps => (c :: p) :: ps

/-- Python's substring test `p in t` on strings. -/
def isSub (p t : List Char) : Bool :=
  match t with
  | [] => p.isEmpty
  | _ :: bs => p.isPrefixOf t || isSub p bs

/-- The variable `text_to_add` of `create_file_w_regressions_sent_by_email`
after its `lstrip`: the candidate records joined by a newline, leading
newlines stripped. -/
def textToAddOf (cands : List (List Char)) : List Char :=
  lstripNL (joinSep ['\n'] cands)

/-- The variable `initial_lines_in_log_joined` of
`create_file_w_regressions_sent_by_email` after its `lstrip`: the ledger
lines concatenated, leading newlines stripped. -/
def joinedOf (initial_lines_in_log : List (List Char)) : List Char :=
  lstripNL initial_lines_in_log.flatten

/-- The list `new_changes` built by the loop of
`create_file_w_regressions_sent_by_email`: the blank-line-separated
pieces of `text_to_add` that do not occur as substrings of the joined
ledger content (`item_list not in initial_lines_in_log_joined`). -/
def newPiecesOf (cands initial_lines_in_log : List (List Char)) : List (List Char) :=
  (splitNN (textToAddOf cands)).filter (fun p => ! isSub p (joinedOf initial_lines_in_log))

/-- The string `new_changes` of `create_file_w_regressions_sent_by_email`
after the join and the newline prefix. -/
def newChangesOf (cands initial_lines_in_log : List (List Char)) : List Char :=
  '\n' :: joinSep ['\n', '\n'] (newPiecesOf cands initial_lines_in_log)

/-- Shallow embedding of `create_file_w_regressions_sent_by_email`.
Candidates and ledger lines are character lists; the result is the
returned value (`None` or the new-changes string) paired with the text
appended to the ledger file (empty when nothing is written).  `NEWLINE_SYMBOL`
is the newline character (the constants module defining it is not in the
sources; the ledger separates entries by blank lines). -/
def create_file_w_regressions_sent_by_email
    (list_of_bad_highly_signif_changes_w_context initial_lines_in_log : List (List Char)) :
    Option (List Char) × List Char :=
  let text_to_add := textToAddOf list_of_bad_highly_signif_changes_w_context
  let joined := joinedOf initial_lines_in_log
  let new_changes :=
    newChangesOf list_of_bad_highly_signif_changes_w_context initial_lines_in_log
  if new_changes ≠ ['\n'] ∧ joined ≠ text_to_add ∧ text_to_add ≠ [] then
    (some new_changes,
      if initial_lines_in_log ≠ [] ∨ joined ≠ [] then new_changes else text_to_add)
  else (none, [])

example : splitNN "a\n\n\nb".data = ["a".data, "\nb".data] := by decide

example : splitNN "\n\n".data = [[], []] := by decide

example : isSub "ab\n".data "xab\ny\n".data = true := by decide

example : isSub "ab\n".data "xaby\n".data = false := by decide

example : lstripNL "\n\nab".data = "ab".data := by decide

example :
    create_file_w_regressions_sent_by_email ["ab\n".data] [] =
      (some ('\n' :: "ab\n".data), "ab\n".data) := by decide

lemma isPrefixOf_append_right (p t u : List Char) (h : p.isPrefixOf t = true) :
    p.isPrefixOf (t ++ u) = true :=
  List.isPrefixOf_iff_prefix.mpr
    ((List.isPrefixOf_iff_prefix.mp h).trans (List.prefix_append t u))

lemma isSub_nil_left (t : List Char) : isSub [] t = true := by
  cases t <;> simp [isSub, List.isPrefixOf]

lemma isSub_of_isPrefixOf (p t : List Char) (h : p.isPrefixOf t = true) :
    isSub p t = true := by
  cases t with
  | nil =>
    have : p = [] := List.prefix_nil.mp (List.isPrefixOf_iff_prefix.mp h)
    simp [this, isSub]
  | cons c rest => simp [isSub, h]

lemma isSub_self (p : List Char) : isSub p p = true :=
  isSub_of_isPrefixOf p p (List.isPrefixOf_iff_prefix.mpr (List.prefix_refl p))

lemma isSub_cons_right (p : List Char) (c : Char) (t : List Char)
    (h : isSub p t = true) : isSub p (c :: t) = true := by
  simp [isSub, h]

lemma isSub_append_left (p A B : List Char) (h : isSub p B = true) :
    isSub p (A ++ B) = true := by
  induction A with
  | nil => exact h
  | cons a A ih => exact isSub_cons_right p a (A ++ B) ih

lemma isSub_append_right (p A B : List Char) (h : isSub p A = true) :
    isSub p (A ++ B) = true := by
  induction A with
  | nil =>
    have : p = [] := by
      cases p with
      | nil => rfl
      | cons c r => simp [isSub, List.isEmpty] at h
    rw [this]
    exact isSub_nil_left B
  | cons a A ih =>
    simp only [isSub, Bool.or_eq_true] at h
    rcases h with h | h
    · have := isPrefixOf_append_right p (a :: A) B h
      simp only [List.cons_append]
      simp [isSub, List.cons_append] at this ⊢
      exact Or.inl this
    · exact isSub_cons_right p a (A ++ B) (ih h)

lemma mem_joinSep_isSub (sep : List Char) (x : List Char) :
    ∀ (l : List (List Char)), x ∈ l → isSub x (joinSep sep l) = true := by
  intro l
  induction l with
  | nil => intro h; cases h
  | cons y l ih =>
    intro h
    cases l with
    | nil =>
      rcases List.mem_singleton.mp h with rfl
      exact isSub_self x
    | cons z l' =>
      show isSub x (y ++ sep ++ joinSep sep (z :: l')) = true
      rcases List.mem_cons.mp h with rfl | h
      · have := isSub_append_right x x (sep ++ joinSep sep (z :: l')) (isSub_self x)
        simpa [List.append_assoc] using this
      · have hx := ih h
        have := isSub_append_left x (y ++ sep) (joinSep sep (z :: l')) hx
        simpa [List.append_assoc] using this

lemma splitNN_ne_nil : ∀ (t : List Char), splitNN t ≠ [] := by
  intro t
  induction t using splitNN.induct with
  | case1 => simp [splitNN]
  | case2 rest ih => simp [splitNN]
  | case3 c rest hne hnil ih => exact absurd hnil ih
  | case4 c rest hne p ps heq ih => simp [splitNN, heq]

lemma splitNN_head_isPrefixOf :
    ∀ (t : List Char), ∀ p ps, splitNN t = p :: ps → p.isPrefixOf t = true := by
  intro t
  induction t using splitNN.induct with
  | case1 =>
    intro p ps h
    simp only [splitNN] at h
    cases h
    rfl
  | case2 rest ih =>
    intro p ps h
    simp only [splitNN] at h
    cases h
    rfl
  | case3 c rest hne hnil ih => exact absurd hnil (splitNN_ne_nil rest)
  | case4 c rest hne p0 ps0 heq ih =>
    intro p ps h
    simp only [splitNN, heq] at h
    cases h
    have hp := ih p0 ps0 heq
    simp [List.isPrefixOf, hp]

lemma mem_splitNN_isSub :
    ∀ (t p : List Char), p ∈ splitNN t → isSub p t = true := by
  intro t
  induction t using splitNN.induct with
  | case1 =>
    intro p h
    simp only [splitNN, List.mem_singleton] at h
    simp [h, isSub]
  | case2 rest ih =>
    intro p h
    simp only [splitNN, List.mem_cons] at h
    rcases h with rfl | h
    · exact isSub_nil_left _
    · exact isSub_cons_right _ _ _ (isSub_cons_right _ _ _ (ih p h))
  | case3 c rest hne hnil ih => exact absurd hnil (splitNN_ne_nil rest)
  | case4 c rest hne p0 ps0 heq ih =>
    intro p h
    simp only [splitNN, heq, List.mem_cons] at h
    rcases h with rfl | h
    · refine isSub_of_isPrefixOf _ _ ?_
      have hp := splitNN_head_isPrefixOf rest p0 ps0 heq
      simp [List.isPrefixOf, hp]
    · exact isSub_cons_right _ _ _ (ih p (heq ▸ List.mem_cons_of_mem p0 h))

lemma lstripNL_append (A B : List Char) :
    lstripNL (A ++ B) = if lstripNL A = [] then lstripNL B else lstripNL A ++ B := by
  induction A with
  | nil => simp [lstripNL]
  | cons a A ih =>
    by_cases h : a = '\n'
    · subst h
      have e1 : lstripNL ('\n' :: (A ++ B)) = lstripNL (A ++ B) := by simp [lstripNL]
      have e2 : lstripNL ('\n' :: A) = lstripNL A := by simp [lstripNL]
      rw [List.cons_append, e1, e2, ih]
    · simp [lstripNL, h]

lemma lstripNL_idem (A : List Char) : lstripNL (lstripNL A) = lstripNL A := by
  induction A with
  | nil => rfl
  | cons a A ih =>
    by_cases h : a = '\n'
    · simp [lstripNL, h, ih]
    · simp [lstripNL, h]

lemma lstripNL_shape (A : List Char) :
    lstripNL A = [] ∨ ∃ c r, lstripNL A = c :: r ∧ c ≠ '\n' := by
  induction A with
  | nil => exact Or.inl rfl
  | cons a A ih =>
    by_cases h : a = '\n'
    · simpa [lstripNL, h] using ih
    · exact Or.inr ⟨a, A, by simp [lstripNL, h], h⟩

lemma lstripNL_cons_of_ne (c : Char) (r : List Char) (h : c ≠ '\n') :
    lstripNL (c :: r) = c :: r := by
  simp [lstripNL, h]

lemma isSub_nil_right (p : List Char) (h : isSub p [] = true) : p = [] := by
  cases p with
  | nil => rfl
  | cons c r => simp [isSub, List.isEmpty] at h

lemma isSub_lstrip_mono (p A B : List Char) (h : isSub p (lstripNL A) = true) :
    isSub p (lstripNL (A ++ B)) = true := by
  rw [lstripNL_append]
  split
  · rename_i he
    rw [he] at h
    rw [isSub_nil_right p h]
    exact isSub_nil_left _
  · exact isSub_append_right p _ B h

lemma splitNN_cons_ne (c : Char) (rest : List Char) (h : c ≠ '\n') :
    ∃ p ps, splitNN rest = p :: ps ∧ splitNN (c :: rest) = (c :: p) :: ps := by
  rcases hsp : splitNN rest with _ | ⟨p, ps⟩
  · exact absurd hsp (splitNN_ne_nil rest)
  · refine ⟨p, ps, rfl, ?_⟩
    simp [splitNN, h, hsp]

/-- After a run of `create_file_w_regressions_sent_by_email` that wrote
its text to the ledger file, every blank-line-separated piece of
`text_to_add` occurs as a substring of the updated ledger content. -/
lemma run2_covers (cands L : List (List Char)) (hT : textToAddOf cands ≠ []) :
    ∀ p ∈ splitNN (textToAddOf cands),
      isSub p (lstripNL (L.flatten ++
        (if L ≠ [] ∨ joinedOf L ≠ [] then newChangesOf cands L
         else textToAddOf cands))) = true := by
  intro p hp
  by_cases hcase : L ≠ [] ∨ joinedOf L ≠ []
  · rw [if_pos hcase]
    by_cases hdrop : isSub p (joinedOf L) = true
    · exact isSub_lstrip_mono p L.flatten _ hdrop
    · have hpK : p ∈ newPiecesOf cands L :=
        List.mem_filter.mpr ⟨hp, by simp [hdrop]⟩
      have hpI : isSub p (joinSep ['\n', '\n'] (newPiecesOf cands L)) = true :=
        mem_joinSep_isSub _ p _ hpK
      rw [lstripNL_append]
      split
      · rename_i hJnil
        have hstep : lstripNL (newChangesOf cands L) =
            lstripNL (joinSep ['\n', '\n'] (newPiecesOf cands L)) := by
          simp [newChangesOf, lstripNL]
        rw [hstep]
        obtain ⟨c, rest, hTeq, hcne⟩ :
            ∃ c rest, textToAddOf cands = c :: rest ∧ c ≠ '\n' := by
          rcases lstripNL_shape (joinSep ['\n'] cands) with h0 | ⟨c, r, h1, h2⟩
          · exact absurd h0 hT
          · exact ⟨c, r, h1, h2⟩
        obtain ⟨p0, ps0, hrest, hsplit⟩ := splitNN_cons_ne c rest hcne
        have hJ : joinedOf L = [] := hJnil
        have hK : newPiecesOf cands L =
            (c :: p0) :: ps0.filter (fun q => ! isSub q (joinedOf L)) := by
          simp only [newPiecesOf, hTeq, hsplit]
          rw [List.filter_cons]
          simp [hJ, isSub, List.isEmpty]
        have hIhead : ∃ r', joinSep ['\n', '\n'] (newPiecesOf cands L) = c :: r' := by
          rw [hK]
          cases hf : ps0.filter (fun q => ! isSub q (joinedOf L)) with
          | nil => exact ⟨p0, rfl⟩
          | cons z zs =>
            refine ⟨p0 ++ ['\n', '\n'] ++ joinSep ['\n', '\n'] (z :: zs), ?_⟩
            show (c :: p0) ++ ['\n', '\n'] ++ joinSep ['\n', '\n'] (z :: zs) = _
            simp [List.cons_append, List.append_assoc]
        obtain ⟨r', hI⟩ := hIhead
        rw [hI, lstripNL_cons_of_ne c r' hcne, ← hI]
        exact hpI
      · exact isSub_append_left p _ _ (isSub_cons_right p '\n' _ hpI)
  · rw [if_neg hcase]
    push_neg at hcase
    obtain ⟨hL, hJ⟩ := hcase
    rw [hL]
    show isSub p (lstripNL (([] : List (List Char)).flatten ++ textToAddOf cands)) = true
    simp only [List.flatten_nil, List.nil_append]
    rw [show lstripNL (textToAddOf cands) = textToAddOf cands from lstripNL_idem _]
    exact mem_splitNN_isSub _ p hp

/-- C5.  Idempotence of the ledger reconciliation: appending what a run
of `create_file_w_regressions_sent_by_email` wrote to the ledger and
re-running it with the same candidate list yields no return value and no
further write (the ledger is left untouched and no notification is
produced). -/
theorem claim_C5_reconcile_idempotent (cands L : List (List Char)) :
    create_file_w_regressions_sent_by_email cands
        (L ++ [(create_file_w_regressions_sent_by_email cands L).2]) = (none, []) := by
  by_cases hcond : newChangesOf cands L ≠ ['\n'] ∧ joinedOf L ≠ textToAddOf cands ∧
      textToAddOf cands ≠ []
  · obtain ⟨hNCne, hJT, hT⟩ := hcond
    have h1 : create_file_w_regressions_sent_by_email cands L =
        (some (newChangesOf cands L),
          if L ≠ [] ∨ joinedOf L ≠ [] then newChangesOf cands L
          else textToAddOf cands) := by
      simp only [create_file_w_regressions_sent_by_email]
      rw [if_pos ⟨hNCne, hJT, hT⟩]
    rw [h1]
    have hcover := run2_covers cands L hT
    have hfl : (L ++ [if L ≠ [] ∨ joinedOf L ≠ [] then newChangesOf cands L
        else textToAddOf cands]).flatten =
        L.flatten ++ (if L ≠ [] ∨ joinedOf L ≠ [] then newChangesOf cands L
          else textToAddOf cands) := by
      simp
    have hKnil : newPiecesOf cands (L ++ [if L ≠ [] ∨ joinedOf L ≠ [] then
        newChangesOf cands L else textToAddOf cands]) = [] := by
      rw [newPiecesOf, List.filter_eq_nil_iff]
      intro q hq
      have hcov := hcover q hq
      simp only [joinedOf] at hcov hfl ⊢
      rw [hfl]
      simp [hcov]
    have hnc : newChangesOf cands (L ++ [if L ≠ [] ∨ joinedOf L ≠ [] then
        newChangesOf cands L else textToAddOf cands]) = ['\n'] := by
      rw [newChangesOf, hKnil]
      rfl
    simp only [create_file_w_regressions_sent_by_email]
    rw [if_neg (fun hcontra => hcontra.1 hnc)]
  · have h1 : create_file_w_regressions_sent_by_email cands L = (none, []) := by
      simp only [create_file_w_regressions_sent_by_email]
      rw [if_neg hcond]
    rw [h1]
    have hflat : (L ++ [([] : List Char)]).flatten = L.flatten := by simp
    have hJ : joinedOf (L ++ [([] : List Char)]) = joinedOf L := by
      simp only [joinedOf, hflat]
    have hK : newPiecesOf cands (L ++ [([] : List Char)]) = newPiecesOf cands L := by
      simp only [newPiecesOf, hJ]
    have hNC : newChangesOf cands (L ++ [([] : List Char)]) = newChangesOf cands L := by
      simp only [newChangesOf, hK]
    simp only [create_file_w_regressions_sent_by_email]
    rw [hNC, hJ, if_neg hcond]

/-- Whether a character list contains two consecutive newlines (a blank
line). -/
def hasNN : List Char → Bool
  | '\n' :: '\n' :: _ => true
  | _ :: rest => hasNN rest
  | [] => false

/-- A well-formed record body: nonempty, no blank line inside, and not
starting or ending with a newline (the rendered change records have this
shape: their final newline is added separately). -/
def goodBody (b : List Char) : Prop :=
  b ≠ [] ∧ b.head? ≠ some '\n' ∧ b.getLast? ≠ some '\n' ∧ hasNN b = false

instance goodBody_decidable (b : List Char) : Decidable (goodBody b) := by
  unfold goodBody
  infer_instance

/-- The record bodies as they come out of `split("\n\n")` applied to the
newline-joined records: every body but the last is stripped of its
trailing newline; the last keeps it. -/
def withLastNL : List (List Char) → List (List Char)
  | [] => [['\n']]
  | [b] => [b ++ ['\n']]
  | b :: bs => b :: withLastNL bs

lemma hasNN_cons_reduce (c d : Char) (rest : List Char) (h : ¬(c = '\n' ∧ d = '\n')) :
    hasNN (c :: d :: rest) = hasNN (d :: rest) := by
  by_cases hc : c = '\n'
  · by_cases hd : d = '\n'
    · exact absurd ⟨hc, hd⟩ h
    · simp [hasNN, hc, hd]
  · simp [hasNN, hc]

lemma hasNN_tail (c : Char) (rest : List Char) (h : hasNN (c :: rest) = false) :
    hasNN rest = false := by
  cases rest with
  | nil => rfl
  | cons d r =>
    by_cases hc : c = '\n'
    · by_cases hd : d = '\n'
      · rw [hc, hd] at h
        simp [hasNN] at h
      · rwa [hasNN_cons_reduce c d r (fun hx => hd hx.2)] at h
    · rwa [hasNN_cons_reduce c d r (fun hx => hc hx.1)] at h

lemma hasNN_append_nl (b : List Char) (hb : hasNN b = false)
    (hlast : b.getLast? ≠ some '\n') : hasNN (b ++ ['\n']) = false := by
  induction b with
  | nil => decide
  | cons c b' ih =>
    cases b' with
    | nil =>
      have hc : c ≠ '\n' := by simpa using hlast
      show hasNN (c :: ['\n']) = false
      rw [hasNN_cons_reduce c '\n' [] (fun hx => hc hx.1)]
      decide
    | cons d b'' =>
      have hcd : ¬(c = '\n' ∧ d = '\n') := by
        rintro ⟨rfl, rfl⟩
        simp [hasNN] at hb
      have h1 : hasNN ((c :: d :: b'') ++ ['\n']) = hasNN ((d :: b'') ++ ['\n']) := by
        show hasNN (c :: d :: (b'' ++ ['\n'])) = _
        exact hasNN_cons_reduce c d _ hcd
      rw [h1]
      exact ih (hasNN_tail c (d :: b'') hb) (by rwa [List.getLast?_cons_cons] at hlast)

lemma splitNN_cons_eq (c : Char) (rest : List Char)
    (h : ¬(c = '\n' ∧ ∃ r, rest = '\n' :: r)) :
    ∃ p ps, splitNN rest = p :: ps ∧ splitNN (c :: rest) = (c :: p) :: ps := by
  rcases hsp : splitNN rest with _ | ⟨p, ps⟩
  · exact absurd hsp (splitNN_ne_nil rest)
  · refine ⟨p, ps, rfl, ?_⟩
    by_cases hc : c = '\n'
    · subst hc
      cases rest with
      | nil =>
        simp [splitNN] at hsp
        rw [hsp.1, hsp.2]
        decide
      | cons d r =>
        have hd : d ≠ '\n' := fun hdeq => h ⟨rfl, r, by rw [hdeq]⟩
        simp [splitNN, hd, hsp]
    · simp [splitNN, hc, hsp]

lemma splitNN_of_hasNN_false : ∀ (t : List Char), hasNN t = false → splitNN t = [t] := by
  intro t
  induction t with
  | nil => intro _; rfl
  | cons c rest ih =>
    intro h
    have hcond : ¬(c = '\n' ∧ ∃ r, rest = '\n' :: r) := by
      rintro ⟨rfl, r, rfl⟩
      simp [hasNN] at h
    obtain ⟨p, ps, hsp, heq⟩ := splitNN_cons_eq c rest hcond
    rw [ih (hasNN_tail c rest h)] at hsp
    injection hsp with h1 h2
    rw [heq, ← h1, ← h2]

lemma splitNN_body_sep : ∀ (b : List Char), ∀ (t : List Char), hasNN b = false →
    b.getLast? ≠ some '\n' →
    splitNN (b ++ '\n' :: '\n' :: t) = b :: splitNN t := by
  intro b
  induction b with
  | nil => intro t _ _; simp [splitNN]
  | cons c b' ih =>
    intro t hb hlast
    have hcond : ¬(c = '\n' ∧ ∃ r, (b' ++ '\n' :: '\n' :: t) = '\n' :: r) := by
      rintro ⟨rfl, r, hr⟩
      cases b' with
      | nil => simp at hlast
      | cons d b'' =>
        rw [List.cons_append] at hr
        injection hr with hd _
        rw [hd] at hb
        simp [hasNN] at hb
    obtain ⟨p, ps, hsp, heq⟩ := splitNN_cons_eq c (b' ++ '\n' :: '\n' :: t) hcond
    cases b' with
    | nil =>
      have hnl : splitNN ('\n' :: '\n' :: t) = [] :: splitNN t := by simp [splitNN]
      rw [List.nil_append] at hsp heq
      rw [hnl] at hsp
      injection hsp with h1 h2
      show splitNN (c :: '\n' :: '\n' :: t) = [c] :: splitNN t
      rw [heq, ← h1, ← h2]
    | cons d b'' =>
      have hIH := ih t (hasNN_tail c (d :: b'') hb)
        (by rwa [List.getLast?_cons_cons] at hlast)
      rw [hIH] at hsp
      injection hsp with h1 h2
      rw [List.cons_append, heq, ← h1, ← h2]

lemma joinSep_cons_append (sep b : List Char) (bs : List (List Char)) :
    ∃ r, joinSep sep (b :: bs) = b ++ r := by
  cases bs with
  | nil => exact ⟨[], by simp [joinSep]⟩
  | cons z zs =>
    refine ⟨sep ++ joinSep sep (z :: zs), ?_⟩
    show b ++ sep ++ joinSep sep (z :: zs) = _
    simp [List.append_assoc]

lemma joinSep_map_nl : ∀ (bodies : List (List Char)), bodies ≠ [] →
    joinSep ['\n'] (bodies.map (fun b => b ++ ['\n'])) =
      joinSep ['\n', '\n'] bodies ++ ['\n'] := by
  intro bodies
  induction bodies with
  | nil => intro h; exact absurd rfl h
  | cons b bs ih =>
    intro _
    cases bs with
    | nil => simp [joinSep]
    | cons z zs =>
      have hih := ih (by simp)
      show (b ++ ['\n']) ++ ['\n'] ++ joinSep ['\n'] ((z :: zs).map (fun b => b ++ ['\n'])) = _
      rw [hih]
      show _ = (b ++ ['\n', '\n'] ++ joinSep ['\n', '\n'] (z :: zs)) ++ ['\n']
      simp [List.append_assoc]

lemma withLastNL_ne : ∀ (bodies : List (List Char)), (∀ b ∈ bodies, b ≠ []) →
    ∀ p ∈ withLastNL bodies, p ≠ [] := by
  intro bodies
  induction bodies with
  | nil =>
    intro _ p hp
    simp only [withLastNL, List.mem_singleton] at hp
    simp [hp]
  | cons b bs ih =>
    intro hb p hp
    cases bs with
    | nil =>
      simp only [withLastNL, List.mem_singleton] at hp
      simp [hp]
    | cons z zs =>
      rcases List.mem_cons.mp hp with rfl | hp'
      · exact hb p (List.mem_cons_self p _)
      · exact ih (fun x hx => hb x (List.mem_cons_of_mem b hx)) p hp'

lemma splitNN_joinSep_bodies : ∀ (bodies : List (List Char)), bodies ≠ [] →
    (∀ b ∈ bodies, goodBody b) →
    splitNN (joinSep ['\n', '\n'] bodies ++ ['\n']) = withLastNL bodies := by
  intro bodies
  induction bodies with
  | nil => intro h; exact absurd rfl h
  | cons b bs ih =>
    intro _ hgood
    obtain ⟨hbne, hbhead, hblast, hbNN⟩ := hgood b (List.mem_cons_self b bs)
    cases bs with
    | nil =>
      show splitNN (b ++ ['\n']) = [b ++ ['\n']]
      exact splitNN_of_hasNN_false _ (hasNN_append_nl b hbNN hblast)
    | cons z zs =>
      have hih := ih (by simp) (fun x hx => hgood x (List.mem_cons_of_mem b hx))
      have hassoc : joinSep ['\n', '\n'] (b :: z :: zs) ++ ['\n'] =
          b ++ '\n' :: '\n' :: (joinSep ['\n', '\n'] (z :: zs) ++ ['\n']) := by
        show (b ++ ['\n', '\n'] ++ joinSep ['\n', '\n'] (z :: zs)) ++ ['\n'] = _
        simp [List.append_assoc]
      rw [hassoc, splitNN_body_sep b _ hbNN hblast, hih]
      rfl

lemma textToAdd_bodies (bodies : List (List Char)) (hne : bodies ≠ [])
    (hgood : ∀ b ∈ bodies, goodBody b) :
    textToAddOf (bodies.map (fun b => b ++ ['\n'])) =
      joinSep ['\n', '\n'] bodies ++ ['\n'] := by
  rw [textToAddOf, joinSep_map_nl bodies hne]
  cases bodies with
  | nil => exact absurd rfl hne
  | cons b bs =>
    obtain ⟨hbne, hbhead, _, _⟩ := hgood b (List.mem_cons_self b bs)
    obtain ⟨r, hr⟩ := joinSep_cons_append ['\n', '\n'] b bs
    cases b with
    | nil => exact absurd rfl hbne
    | cons c b1 =>
      have hc : c ≠ '\n' := by simpa using hbhead
      rw [hr]
      have hshape : ((c :: b1) ++ r) ++ ['\n'] = c :: (b1 ++ (r ++ ['\n'])) := by
        simp [List.cons_append, List.append_assoc]
      rw [hshape, lstripNL_cons_of_ne c _ hc]

/-- C4 counterexample.  The membership test of
`create_file_w_regressions_sent_by_email` is Python's substring operator
on the joined ledger text, not exact string equality against ledger
entries: the candidate `"ab\n"` differs from the only ledger entry
`"xab\ny\n"`, yet it is dropped (nothing returned, nothing appended)
because it occurs inside it as a substring. -/
theorem claim_C4_counterexample :
    create_file_w_regressions_sent_by_email ["ab\n".data] ["xab\ny\n".data] =
      (none, []) ∧ "ab\n".data ≠ "xab\ny\n".data :=
  ⟨by decide, by decide⟩

/-- C4 as amended.  For well-formed candidate records (joined bodies with
a trailing newline each), a candidate's piece — its body, the last one
keeping its trailing newline — is placed in the returned new set iff it
does not occur as a substring of the concatenated (newline-stripped)
ledger content; the return value is `None` exactly when no piece
survives, and otherwise the newline-prefixed blank-line join of the
surviving pieces in order. -/
theorem claim_C4_amended (bodies L : List (List Char)) (hne : bodies ≠ [])
    (hgood : ∀ b ∈ bodies, goodBody b) :
    (create_file_w_regressions_sent_by_email (bodies.map (fun b => b ++ ['\n'])) L).1 =
      (if ((withLastNL bodies).filter
            (fun p => ! isSub p (joinedOf L))).isEmpty then none
       else some ('\n' :: joinSep ['\n', '\n']
            ((withLastNL bodies).filter (fun p => ! isSub p (joinedOf L))))) := by
  have hT := textToAdd_bodies bodies hne hgood
  have hpieces : splitNN (textToAddOf (bodies.map (fun b => b ++ ['\n']))) =
      withLastNL bodies := by
    rw [hT]
    exact splitNN_joinSep_bodies bodies hne hgood
  have hK : newPiecesOf (bodies.map (fun b => b ++ ['\n'])) L =
      (withLastNL bodies).filter (fun p => ! isSub p (joinedOf L)) := by
    rw [newPiecesOf, hpieces]
  by_cases hk : (withLastNL bodies).filter (fun p => ! isSub p (joinedOf L)) = []
  · have hNC : newChangesOf (bodies.map (fun b => b ++ ['\n'])) L = ['\n'] := by
      rw [newChangesOf, hK, hk]
      rfl
    simp only [create_file_w_regressions_sent_by_email]
    rw [if_neg (fun hc => hc.1 hNC), hk]
    simp
  · obtain ⟨q, kr, hqk⟩ := List.exists_cons_of_ne_nil hk
    have hq_mem : q ∈ withLastNL bodies := by
      have hqin : q ∈ (withLastNL bodies).filter (fun p => ! isSub p (joinedOf L)) := by
        rw [hqk]
        exact List.mem_cons_self q kr
      exact (List.mem_filter.mp hqin).1
    have hqne : q ≠ [] :=
      withLastNL_ne bodies (fun b hb => (hgood b hb).1) q hq_mem
    have hNCne : newChangesOf (bodies.map (fun b => b ++ ['\n'])) L ≠ ['\n'] := by
      rw [newChangesOf, hK, hqk]
      obtain ⟨r, hr⟩ := joinSep_cons_append ['\n', '\n'] q kr
      rw [hr]
      intro hcontra
      injection hcontra with _ h2
      exact hqne (List.append_eq_nil.mp h2).1
    have hTne : textToAddOf (bodies.map (fun b => b ++ ['\n'])) ≠ [] := by
      rw [hT]
      simp
    have hJT : joinedOf L ≠ textToAddOf (bodies.map (fun b => b ++ ['\n'])) := by
      intro hEq
      have hsub : isSub q (textToAddOf (bodies.map (fun b => b ++ ['\n']))) = true := by
        apply mem_splitNN_isSub
        rw [hpieces]
        exact hq_mem
      have hqin : q ∈ (withLastNL bodies).filter (fun p => ! isSub p (joinedOf L)) := by
        rw [hqk]
        exact List.mem_cons_self q kr
      have hfil := (List.mem_filter.mp hqin).2
      rw [hEq] at hfil
      simp [hsub] at hfil
    simp only [create_file_w_regressions_sent_by_email]
    rw [if_pos ⟨hNCne, hJT, hTne⟩]
    show some (newChangesOf (bodies.map (fun b => b ++ ['\n'])) L) = _
    rw [newChangesOf, hK, hqk]
    simp [List.isEmpty]

/-- Witness for the amended C4 at a concrete input: the single record
body `"a"` against an empty ledger is kept and returned. -/
theorem claim_C4_amended_witness :
    (["a".data] : List (List Char)) ≠ [] ∧ (∀ b ∈ [("a".data : List Char)], goodBody b) ∧
      (create_file_w_regressions_sent_by_email
          (([("a".data : List Char)]).map (fun b => b ++ ['\n'])) []).1 =
        (if ((withLastNL [("a".data : List Char)]).filter
              (fun p => ! isSub p (joinedOf []))).isEmpty then none
         else some ('\n' :: joinSep ['\n', '\n']
              ((withLastNL [("a".data : List Char)]).filter
                (fun p => ! isSub p (joinedOf []))))) :=
  ⟨by decide, by decide, claim_C4_amended ["a".data] [] (by decide) (by decide)⟩

def c6Time : String := "2022-01-01 23:00:00"

def c6ChangeA : Change := ⟨"avgLat", "20", 20⟩

def c6ChangeB : Change := ⟨"p99", "30", 30⟩

def c6RenderA : String := renderChange "lwt-fixed-100-partitions" c6Time "" "" "avgLat" "20"

def c6RenderB : String := renderChange "lwt-fixed-100-partitions" c6Time "" "" "p99" "30"

set_option maxRecDepth 16000 in
/-- C6 counterexample.  Two batches holding the same two significant
changes in opposite orders: the classifier emits the same records in
input order, and the reconciliation against an empty ledger joins them in
that order, so the rendered new-changes text differs byte-wise between
the two runs. -/
theorem claim_C6_counterexample :
    get_list_of_signif_changes_w_context (fun _ => "") (fun _ => "")
        [[("lwt-fixed-100-partitions", [⟨c6Time, [c6ChangeA, c6ChangeB]⟩])]] 11 =
      .ok (some [c6RenderA, c6RenderB]) ∧
    get_list_of_signif_changes_w_context (fun _ => "") (fun _ => "")
        [[("lwt-fixed-100-partitions", [⟨c6Time, [c6ChangeB, c6ChangeA]⟩])]] 11 =
      .ok (some [c6RenderB, c6RenderA]) ∧
    (create_file_w_regressions_sent_by_email [c6RenderA.data, c6RenderB.data] []).1 ≠
      (create_file_w_regressions_sent_by_email [c6RenderB.data, c6RenderA.data] []).1 :=
  ⟨by rfl, by rfl, by decide⟩

lemma flatten_perm {α : Type} : ∀ (l1 l2 : List (List α)),
    List.Forall₂ (fun a b => a.Perm b) l1 l2 → l1.flatten.Perm l2.flatten := by
  intro l1 l2 h
  induction h with
  | nil => exact List.Perm.refl _
  | cons h1 _ ih => exact h1.append ih

lemma badList_perm (shaC shaF : String → String) (t : ℚ) (tt : String)
    (entries1 entries2 : List TimeEntry)
    (h : List.Forall₂ (fun a b => a.time = b.time ∧ a.changes.Perm b.changes)
      entries1 entries2) :
    (badListOfEntries shaC shaF t tt entries1).Perm
      (badListOfEntries shaC shaF t tt entries2) := by
  apply flatten_perm
  induction h with
  | nil => exact List.Forall₂.nil
  | cons h1 _ ih =>
    refine List.Forall₂.cons ?_ ih
    obtain ⟨htime, hperm⟩ := h1
    simp only [htime]
    exact (hperm.filter _).map _

lemma uniqCount1_perm (l1 l2 : List String) (h : l1.Perm l2) :
    (uniqCount1 l1).Perm (uniqCount1 l2) := by
  refine (List.perm_ext_iff_of_nodup (nodup_uniqCount1 l1) (nodup_uniqCount1 l2)).mpr ?_
  intro a
  rw [mem_uniqCount1, mem_uniqCount1, h.count_eq]

/-- C6 as amended.  For two batches whose time entries carry the same
timestamps and the same multisets of changes, the classifier's outputs
are permutations of each other (the same multiset of rendered records,
each rendered identically); the order within the joined new-changes text
follows the input order, so the text is byte-identical only up to
reordering of the records. -/
theorem claim_C6_amended (shaC shaF : String → String) (t : ℚ) (tt : String)
    (entries1 entries2 : List TimeEntry)
    (restPairs : List (String × List TimeEntry)) (restBatch : List HunterDict)
    (h : List.Forall₂ (fun a b => a.time = b.time ∧ a.changes.Perm b.changes)
      entries1 entries2) :
    get_list_of_signif_changes_w_context shaC shaF
        (((tt, entries1) :: restPairs) :: restBatch) t =
      .ok (some (uniqCount1 (badListOfEntries shaC shaF t tt entries1))) ∧
    get_list_of_signif_changes_w_context shaC shaF
        (((tt, entries2) :: restPairs) :: restBatch) t =
      .ok (some (uniqCount1 (badListOfEntries shaC shaF t tt entries2))) ∧
    (uniqCount1 (badListOfEntries shaC shaF t tt entries1)).Perm
      (uniqCount1 (badListOfEntries shaC shaF t tt entries2)) :=
  ⟨rfl, rfl, uniqCount1_perm _ _ (badList_perm shaC shaF t tt entries1 entries2 h)⟩

set_option maxRecDepth 16000 in
/-- Witness for the amended C6 at a concrete input: one time entry whose
two changes are swapped between the two batches. -/
theorem claim_C6_amended_witness :
    List.Forall₂ (fun (a : TimeEntry) (b : TimeEntry) =>
        a.time = b.time ∧ a.changes.Perm b.changes)
      [⟨c6Time, [c6ChangeA, c6ChangeB]⟩] [⟨c6Time, [c6ChangeB, c6ChangeA]⟩] ∧
    (get_list_of_signif_changes_w_context (fun _ => "") (fun _ => "")
        ((("lwt-fixed-100-partitions", [⟨c6Time, [c6ChangeA, c6ChangeB]⟩]) :: []) :: []) 11 =
      .ok (some (uniqCount1 (badListOfEntries (fun _ => "") (fun _ => "") 11
        "lwt-fixed-100-partitions" [⟨c6Time, [c6ChangeA, c6ChangeB]⟩]))) ∧
    get_list_of_signif_changes_w_context (fun _ => "") (fun _ => "")
        ((("lwt-fixed-100-partitions", [⟨c6Time, [c6ChangeB, c6ChangeA]⟩]) :: []) :: []) 11 =
      .ok (some (uniqCount1 (badListOfEntries (fun _ => "") (fun _ => "") 11
        "lwt-fixed-100-partitions" [⟨c6Time, [c6ChangeB, c6ChangeA]⟩]))) ∧
    (uniqCount1 (badListOfEntries (fun _ => "") (fun _ => "") 11
        "lwt-fixed-100-partitions" [⟨c6Time, [c6ChangeA, c6ChangeB]⟩])).Perm
      (uniqCount1 (badListOfEntries (fun _ => "") (fun _ => "") 11
        "lwt-fixed-100-partitions" [⟨c6Time, [c6ChangeB, c6ChangeA]⟩]))) :=
  ⟨List.Forall₂.cons ⟨rfl, List.Perm.swap c6ChangeB c6ChangeA []⟩ List.Forall₂.nil,
    claim_C6_amended (fun _ => "") (fun _ => "") 11 "lwt-fixed-100-partitions"
      [⟨c6Time, [c6ChangeA, c6ChangeB]⟩] [⟨c6Time, [c6ChangeB, c6ChangeA]⟩] [] []
      (List.Forall₂.cons ⟨rfl, List.Perm.swap c6ChangeB c6ChangeA []⟩ List.Forall₂.nil)⟩

lemma uniqCount1_singleton (x : String) : uniqCount1 [x] = [x] := by
  simp [uniqCount1, uniqFirst, List.count_singleton]

set_option maxRecDepth 8000 in
/-- C7 counterexample.  A metric name outside the known set
(`fooMetric`) raises no error: the code's `else` branch silently applies
the latency rule to it and returns it as a bad significant change. -/
theorem claim_C7_counterexample :
    get_list_of_signif_changes_w_context (fun _ => "") (fun _ => "")
        [[("tt", [⟨"2022-01-01 23:00:00", [⟨"fooMetric", "50", 50⟩]⟩])]] 11 =
      .ok (some [renderChange "tt" "2022-01-01 23:00:00" "" "" "fooMetric" "50"]) := by
  rfl

/-- C7 as amended.  Any metric name that does not start with `totalOps`
or `opRate` — known latency metrics and unknown names alike — is
classified by the latency rule (a positive change beyond the threshold is
a regression) without any error being raised. -/
theorem claim_C7_amended (shaC shaF : String → String) (tt time : String) (t : ℚ)
    (c : Change) (h1 : pyStartsWith c.metric "totalOps" = false)
    (h2 : pyStartsWith c.metric "opRate" = false) :
    get_list_of_signif_changes_w_context shaC shaF [[(tt, [⟨time, [c]⟩])]] t =
      .ok (some (if t < c.forward_change_percent then
        [renderChange tt time (shaC (dateKey time)) (shaF (dateKey time))
          c.metric c.forward_change_percent_str] else [])) := by
  have hb := badList_singleton shaC shaF t tt time c
  have hk : keepChange t c = decide (t < c.forward_change_percent) := by
    simp [keepChange, h1, h2]
  show Except.ok (some (uniqCount1 (badListOfEntries shaC shaF t tt [⟨time, [c]⟩]))) = _
  rw [hb, hk]
  by_cases hlt : t < c.forward_change_percent
  · simp [hlt, uniqCount1_singleton]
  · simp [hlt]
    rfl

/-- Witness for the amended C7 at a concrete input: the unknown metric
name `fooMetric` with a `50` percent change and threshold `11`. -/
theorem claim_C7_amended_witness :
    pyStartsWith "fooMetric" "totalOps" = false ∧
      pyStartsWith "fooMetric" "opRate" = false ∧
      get_list_of_signif_changes_w_context (fun _ => "") (fun _ => "")
          [[("tt", [⟨"2022-01-01 23:00:00", [⟨"fooMetric", "50", 50⟩]⟩])]] 11 =
        .ok (some (if (11:ℚ) < 50 then
          [renderChange "tt" "2022-01-01 23:00:00" "" "" "fooMetric" "50"]
          else [])) :=
  ⟨by decide, by decide,
    claim_C7_amended (fun _ => "") (fun _ => "") "tt" "2022-01-01 23:00:00" 11
      ⟨"fooMetric", "50", 50⟩ (by decide) (by decide)⟩

/-- C8.  The failing input of the claim: a results list holding one
empty batch dictionary.  `next(iter(hunter_dict))` raises
`StopIteration` before the code's own `hunter_dict == {}` check can run,
so the pipeline errors instead of recovering with empty output; an empty
results list, by contrast, falls off the loop and yields `None`. -/
theorem claim_C8_empty_batch_raises :
    get_list_of_signif_changes_w_context (fun _ => "") (fun _ => "") [[]] 11 =
      .error "StopIteration" ∧
    get_list_of_signif_changes_w_context (fun _ => "") (fun _ => "") [] 11 = .ok none :=
  ⟨rfl, rfl⟩

/-- Modelled from the spec: `get_list_of_dict_from_json` of
`src/scripts/utils.py` — the module `create_send_email.py` imports — is
absent from the sources (only the legacy copy under `cassandra_email/`
is present).  Per the spec, of a JSON-lines results file "only the last
line of each file is consumed (most recent detector run)", as the unit
test `test_get_list_of_dict_from_json` also expects; the file is
modelled as the list of its parsed per-line documents. -/
def get_list_of_dict_from_json (fileLines : List HunterDict) : List HunterDict :=
  match fileLines.getLast? with
  | none => []
  | some d => [d]

/-- C9.  The significant-changes output of reading a results file and
running `get_list_of_signif_changes_w_context` depends only on the last
line's document: two files with the same final document yield identical
output, whatever their earlier lines hold. -/
theorem claim_C9_last_line_only (shaC shaF : String → String) (t : ℚ)
    (lines1 lines2 : List HunterDict) (h : lines1.getLast? = lines2.getLast?) :
    get_list_of_signif_changes_w_context shaC shaF (get_list_of_dict_from_json lines1) t =
      get_list_of_signif_changes_w_context shaC shaF (get_list_of_dict_from_json lines2) t := by
  unfold get_list_of_dict_from_json
  rw [h]

/-- Witness for C9 at a concrete input: a two-line file and the one-line
file holding only its last line produce the same output. -/
theorem claim_C9_last_line_only_witness :
    ([[("a", [])], [("b", [])]] : List HunterDict).getLast? =
      ([[("b", [])]] : List HunterDict).getLast? ∧
    get_list_of_signif_changes_w_context (fun _ => "") (fun _ => "")
        (get_list_of_dict_from_json [[("a", [])], [("b", [])]]) 11 =
      get_list_of_signif_changes_w_context (fun _ => "") (fun _ => "")
        (get_list_of_dict_from_json [[("b", [])]]) 11 :=
  ⟨rfl, claim_C9_last_line_only (fun _ => "") (fun _ => "") 11
    [[("a", [])], [("b", [])]] [[("b", [])]] rfl⟩

/-- Python's `''.join` applied to the per-file results collected by
`main`: each element is the return value of
`create_file_w_regressions_sent_by_email` (a string or `None`), and
`str.join` raises `TypeError` as soon as an element is `None`. -/
def joinOptionList : List (Option (List Char)) → Except String (List Char)
  | [] => .ok []
  | none :: _ => .error "TypeError"
  | some s :: rest => (joinOptionList rest).map (fun r => s ++ r)

lemma joinOptionList_none : ∀ (rs : List (Option (List Char))), none ∈ rs →
    joinOptionList rs = .error "TypeError" := by
  intro rs
  induction rs with
  | nil => intro h; cases h
  | cons r rest ih =>
    intro hnone
    cases r with
    | none => rfl
    | some s =>
      have hmem : none ∈ rest := by
        rcases List.mem_cons.mp hnone with h | h
        · exact absurd h (by simp)
        · exact h
      show (joinOptionList rest).map _ = _
      rw [ih hmem]
      rfl

/-- C10.  With an empty candidate list, or with every piece of the
candidates' joined text already contained in the ledger content,
`create_file_w_regressions_sent_by_email` returns `None` and appends
nothing; `main` collects such a `None` into the list it joins with
`''.join`, which then raises `TypeError`, so a run where at least one
results file yields no new changes fails instead of silently sending no
email. -/
theorem claim_C10_none_propagates_to_join (L cands : List (List Char))
    (rs : List (Option (List Char)))
    (hall : ∀ p ∈ splitNN (textToAddOf cands), isSub p (joinedOf L) = true)
    (hnone : none ∈ rs) :
    create_file_w_regressions_sent_by_email [] L = (none, []) ∧
    create_file_w_regressions_sent_by_email cands L = (none, []) ∧
    joinOptionList rs = .error "TypeError" := by
  refine ⟨?_, ?_, joinOptionList_none rs hnone⟩
  · have hK : newPiecesOf [] L = [] := by
      rw [newPiecesOf, List.filter_eq_nil_iff]
      intro q hq
      have hq' : q = [] := by
        simpa [textToAddOf, joinSep, lstripNL, splitNN] using hq
      simp [hq', isSub_nil_left]
    have hNC : newChangesOf [] L = ['\n'] := by
      rw [newChangesOf, hK]
      rfl
    simp only [create_file_w_regressions_sent_by_email]
    rw [if_neg (fun hc => hc.1 hNC)]
  · have hK : newPiecesOf cands L = [] := by
      rw [newPiecesOf, List.filter_eq_nil_iff]
      intro q hq
      simp [hall q hq]
    have hNC : newChangesOf cands L = ['\n'] := by
      rw [newChangesOf, hK]
      rfl
    simp only [create_file_w_regressions_sent_by_email]
    rw [if_neg (fun hc => hc.1 hNC)]

/-- Witness for C10 at a concrete input: the candidate `"ab\n"` against
a ledger already holding exactly that record, and a per-file results
list containing a `None`. -/
theorem claim_C10_none_propagates_to_join_witness :
    (∀ p ∈ splitNN (textToAddOf ["ab\n".data]),
      isSub p (joinedOf ["ab\n".data]) = true) ∧
    (none ∈ ([none] : List (Option (List Char)))) ∧
    (create_file_w_regressions_sent_by_email [] ["ab\n".data] = (none, []) ∧
      create_file_w_regressions_sent_by_email ["ab\n".data] ["ab\n".data] = (none, []) ∧
      joinOptionList [none] = .error "TypeError") :=
  ⟨by decide, by decide,
    claim_C10_none_propagates_to_join ["ab\n".data] ["ab\n".data] [none]
      (by decide) (by decide)⟩
